import Mathlib

namespace Utilities

/-- Modulus of the C++ std::size_t arithmetic. -/
def U64 : Nat := 2 ^ 64

/-- Model of std::sort as used on sequences of naturals: the ascending sort. -/
def sortList (l : List Nat) : List Nat := List.insertionSort (· ≤ ·) l

/-- Inner loop of MCImpl<std::size_t>::eval (combinatorics.cpp): runs the given
number of steps of `result *= numerator; result = (result - result % i) / i;
numerator -= 1;` with the loop counter `i` starting from the given value.
`result` is a std::size_t, so the product wraps modulo 2^64; the subtraction,
remainder and division never leave [0, 2^64) and the decrement of `numerator`
never underflows on the loop's reachable states (it performs exactly
sum-of-ks decrements from sum-of-ks). -/
def mcInnerSteps : Nat → Nat → Nat → Nat → Nat × Nat
  | 0, _, result, numerator => (result, numerator)
  | steps + 1, i, result, numerator =>
    let r1 := result * numerator % U64
    mcInnerSteps steps (i + 1) ((r1 - r1 % i) / i) (numerator - 1)

/-- MCImpl<std::size_t>::eval (combinatorics.cpp): `result = 1`,
`numerator = accumulate(ks, 0)`, then for each `k` in `ks` the inner loop runs
for `i = 1..k`.  With the std::size_t wrap in the inner loop the result is 0,
not 1, once a single count reaches 63. -/
def multinomial_coefficient (ks : List Nat) : Nat :=
  (ks.foldl (fun rn k => mcInnerSteps k 1 rn.1 rn.2) (1, ks.foldl (· + ·) 0)).1

/-- Run-length loop of n_permutations (combinatorics.hpp): on the sorted copy,
repeatedly push `count(ei, end, *ei)` and advance `ei` by that count.  The
fuel argument bounds the number of loop iterations; the list length is always
enough since each iteration consumes at least one element. -/
def runLenAux : Nat → List Nat → List Nat
  | 0, _ => []
  | _, [] => []
  | fuel + 1, x :: xs => (1 + xs.count x) :: runLenAux fuel (xs.drop (xs.count x))

/-- n_permutations (combinatorics.hpp): sort a copy, collect run lengths of
equal elements, and feed them to the multinomial coefficient. -/
def n_permutations (seq : List Nat) : Nat :=
  multinomial_coefficient (runLenAux seq.length (sortList seq))

/-- Scan loop of permutation_to_fns: find the first index of `e` in the list;
return that index together with the list with that one occurrence removed.
`none` models the loop running through without a match (digit stays 0 and
new_orig keeps every element). -/
def findRemove (e : Nat) : List Nat → Option (Nat × List Nat)
  | [] => none
  | y :: ys =>
    if y = e then some (0, ys)
    else (findRemove e ys).map fun p => (p.1 + 1, y :: p.2)

/-- permutation_to_fns (combinatorics.hpp): digit_i is the index of perm[i]
in the current remaining candidate list, which then loses that occurrence. -/
def permutation_to_fns : List Nat → List Nat → List Nat
  | [], _ => []
  | [_], _ => [0]
  | e :: e2 :: rest, original =>
    match findRemove e original with
    | some (d, newOrig) => d :: permutation_to_fns (e2 :: rest) newOrig
    | none => 0 :: permutation_to_fns (e2 :: rest) original

/-- One step of fns_to_permutation's inner loop: split off the element at
index `x` (`none` if `x` is out of range, in which case the list is kept). -/
def extractIdx (x : Nat) : List Nat → Option Nat × List Nat
  | [] => (none, [])
  | y :: ys =>
    if x = 0 then (some y, ys)
    else
      let p := extractIdx (x - 1) ys
      (p.1, y :: p.2)

/-- fns_to_permutation (combinatorics.hpp): repeatedly pop the digit-indexed
remaining element of `original` and append it to the output. -/
def fns_to_permutation (fns : List Nat) (original : List Nat) : List Nat :=
  (fns.foldl
    (fun (tr : List Nat × List Nat) x =>
      let p := extractIdx x tr.1
      (p.2, match p.1 with | some v => tr.2 ++ [v] | none => tr.2))
    (original, [])).2

/-- fns_place_values (combinatorics.hpp): closed forms for lengths 0, 1, 2,
otherwise `n_permutations(perm) / perm.size()` (integer division) consed onto
the place values of the tail. -/
def fns_place_values : List Nat → List Nat
  | [] => []
  | [_] => [1]
  | [_, _] => [1, 1]
  | a :: b :: c :: rest =>
    n_permutations (a :: b :: c :: rest) / (a :: b :: c :: rest).length ::
      fns_place_values (b :: c :: rest)

/-- std::inner_product of two equally long digit/weight sequences with
initial value 0. -/
def innerProd (a b : List Nat) : Nat := (List.zipWith (· * ·) a b).sum

/-- permutation_to_decimal (combinatorics.hpp). -/
def permutation_to_decimal (perm original : List Nat) : Nat :=
  innerProd (permutation_to_fns perm original) (fns_place_values perm)

/-- Inner while loop of decimal_to_fns (combinatorics.hpp).  The state is the
part of new_orig before curr_guess (`pre`), the part from curr_guess on, the
accumulated total_perms and digit_i.  A `some` result carries the chosen
digit, the updated D and the new new_orig; `none` models the C++ loop running
off the end of new_orig, after which the enclosing while loop never
terminates.  Fuel bounds the iterations; the suffix length is enough. -/
def dtfInnerAux (D : Nat) : Nat → List Nat → List Nat → Nat → Nat → Option (Nat × Nat × List Nat)
  | _, _, [], _, _ => none
  | 0, _, _ :: _, _, _ => none
  | fuel + 1, pre, ei :: rest, total, digiti =>
    let temp := pre ++ rest
    let P := n_permutations temp
    if D < total + P then some (digiti, D - (total + P - P), temp)
    else
      let nei := temp.count ei
      dtfInnerAux D fuel (pre ++ ei :: rest.take nei) (rest.drop nei) (total + P) (digiti + 1 + nei)

/-- Outer while loop of decimal_to_fns: one digit is produced per iteration
and new_orig loses one element.  Fuel bounds the iterations; the initial
length is always enough. -/
def dtfOuter : Nat → Nat → List Nat → Option (List Nat)
  | _, _, [] => some []
  | 0, _, _ :: _ => none
  | fuel + 1, D, x :: xs =>
    match dtfInnerAux D (x :: xs).length [] (x :: xs) 0 0 with
    | none => none
    | some (digit, D', newOrig) => (dtfOuter fuel D' newOrig).map (digit :: ·)

/-- decimal_to_fns (combinatorics.hpp): sort a copy of the original sequence,
then pick one digit per position.  `none` models non-termination of the C++
loop (which happens exactly when D is at least the number of permutations). -/
def decimal_to_fns (D : Nat) (orig : List Nat) : Option (List Nat) :=
  dtfOuter orig.length D (sortList orig)

/-- decimal_to_permutation (combinatorics.hpp). -/
def decimal_to_permutation (n : Nat) (original : List Nat) : Option (List Nat) :=
  (decimal_to_fns n original).map fun f => fns_to_permutation f original

/-- BCImpl<std::size_t>::eval (combinatorics.cpp): `k == 0` gives 1, `k > n`
gives 0, `n < 64` recurses by Pascal's rule, and otherwise the function
throws std::overflow_error, modelled as `none`. -/
def binomial_coefficient : Nat → Nat → Option Nat
  | _, 0 => some 1
  | 0, _ + 1 => some 0
  | n + 1, k + 1 =>
    if k + 1 > n + 1 then some 0
    else if n + 1 < 64 then
      match binomial_coefficient n k, binomial_coefficient n (k + 1) with
      | some a, some b => some (a + b)
      | _, _ => none
    else none

/-- Pivot step of std::next_permutation once the suffix xs holds no descent
(it is non-increasing): if x < xs.head, x is the rightmost descent; the
rightmost element of xs greater than x (the last of the leading run of
elements greater than x) is swapped with x and the suffix is reversed.
Otherwise the whole list is non-increasing and there is no next
rearrangement. -/
def nextPermPivot (x : Nat) (xs : List Nat) : Option (List Nat) :=
  match xs with
  | [] => none
  | y :: _ =>
    if x < y then
      let t := xs.takeWhile fun z => decide (x < z)
      let r := xs.dropWhile fun z => decide (x < z)
      match t.getLast? with
      | some q => some (q :: (t.dropLast ++ x :: r).reverse)
      | none => none
    else none

/-- Descent search of std::next_permutation, from the right: `none` when the
list is non-increasing (no i with l[i] < l[i+1]); otherwise the rearranged
list for the rightmost descent. -/
def nextPermGo : List Nat → Option (List Nat)
  | [] => none
  | x :: xs =>
    match nextPermGo xs with
    | some ys => some (x :: ys)
    | none => nextPermPivot x xs

/-- std::next_permutation: the lexicographically next rearrangement, wrapping
the non-increasing (greatest) arrangement around to its reverse (the sorted,
least one). -/
def nextPerm (l : List Nat) : List Nat := (nextPermGo l).getD l.reverse

/-- Pivot step of std::prev_permutation, mirror image of nextPermPivot. -/
def prevPermPivot (x : Nat) (xs : List Nat) : Option (List Nat) :=
  match xs with
  | [] => none
  | y :: _ =>
    if y < x then
      let t := xs.takeWhile fun z => decide (z < x)
      let r := xs.dropWhile fun z => decide (z < x)
      match t.getLast? with
      | some q => some (q :: (t.dropLast ++ x :: r).reverse)
      | none => none
    else none

/-- Descent search of std::prev_permutation, mirror image of nextPermGo. -/
def prevPermGo : List Nat → Option (List Nat)
  | [] => none
  | x :: xs =>
    match prevPermGo xs with
    | some ys => some (x :: ys)
    | none => prevPermPivot x xs

/-- std::prev_permutation: the lexicographically previous rearrangement,
wrapping the non-decreasing (least) arrangement around to its reverse. -/
def prevPerm (l : List Nat) : List Nat := (prevPermGo l).getD l.reverse

/-- State of detail_::PermutationItr<SequenceType> (permutations.hpp) for
sequences of naturals. -/
structure PermutationItr where
  orig_set : List Nat
  sorted_orig : List Nat
  set : List Nat
  offset : Nat
  dx : Nat
deriving DecidableEq

/-- PermutationItr's constructor from a sequence and an offset. -/
def PermutationItr.init (input_set : List Nat) (offset : Nat) : PermutationItr :=
  { orig_set := input_set
    sorted_orig := sortList input_set
    set := input_set
    offset := offset
    dx := permutation_to_decimal input_set (sortList input_set) }

/-- PermutationItr::increment: std::next_permutation on the held sequence and
`++offset_` (std::size_t arithmetic). -/
def PermutationItr.increment (it : PermutationItr) : PermutationItr :=
  { it with set := nextPerm it.set, offset := (it.offset + 1) % U64 }

/-- PermutationItr::decrement: std::prev_permutation on the held sequence and
`--offset_` (std::size_t arithmetic, wrapping at zero). -/
def PermutationItr.decrement (it : PermutationItr) : PermutationItr :=
  { it with set := prevPerm it.set, offset := (it.offset + (U64 - 1)) % U64 }

/-- PermutationItr::advance: recompute the held sequence as
decimal_to_permutation(offset_ + dx_ + n, sorted_orig_) and add n to offset_
(both in std::size_t arithmetic).  `none` models the non-termination of
decimal_to_fns when the target rank is out of range. -/
def PermutationItr.advance (it : PermutationItr) (n : Int) : Option PermutationItr :=
  let D : Nat := (((it.offset : Int) + (it.dx : Int) + n) % (U64 : Int)).toNat
  (decimal_to_permutation D it.sorted_orig).map fun s =>
    { it with set := s, offset := (((it.offset : Int) + n) % (U64 : Int)).toNat }

/-- PermutationItr::are_equal: compares orig_set_, set_ and offset_. -/
def PermutationItr.are_equal (a b : PermutationItr) : Bool :=
  a.orig_set == b.orig_set && a.set == b.set && a.offset == b.offset

/-- The range-for loop over permutations: collect the dereferenced sequence
while the iterator differs from the end iterator, advancing by increment().
Fuel bounds the loop; `none` if it is not reached within the fuel. -/
def collectPerms : Nat → PermutationItr → PermutationItr → Option (List (List Nat))
  | 0, b, e => if b.are_equal e then some [] else none
  | fuel + 1, b, e =>
    if b.are_equal e then some []
    else (collectPerms fuel b.increment e).map (b.set :: ·)

/-- Permutations(container) (permutations.hpp) iterated to completion: begin
is the iterator at offset 0, end the iterator at offset n_permutations. -/
def permutationsAll (container : List Nat) : Option (List (List Nat)) :=
  collectPerms (n_permutations container + 1) (PermutationItr.init container 0)
    (PermutationItr.init container (n_permutations container))

/-- The first n dereferenced sequences of an iterator stepped by increment(). -/
def iterSets : Nat → PermutationItr → List (List Nat)
  | 0, _ => []
  | n + 1, it => it.set :: iterSets n it.increment

/-- n applications of PermutationItr::increment. -/
def incrementN : Nat → PermutationItr → PermutationItr
  | 0, it => it
  | n + 1, it => incrementN n it.increment

/-- RangeItr::advance (range.hpp): `adv > 0 ? value_ += adv : value_ -= -1*adv`. -/
def rangeAdvance (value adv : Int) : Int := if adv > 0 then value + adv else value - (-1 * adv)

/-- The size RangeImpl's constructor precomputes (range.hpp):
`stop > start ? (stop - start)/increment : (start - stop)/(-1*increment)`
with C++ (truncating) integer division. -/
def rangeSize (start stop step : Int) : Int :=
  if stop > start then (stop - start).tdiv step else (start - stop).tdiv (-1 * step)

/-- rangeSize stored in the std::size_t field of RangeContainer. -/
def rangeSizeN (start stop step : Int) : Nat := ((rangeSize start stop step) % (U64 : Int)).toNat

/-- The range-for loop over a Range: collect value_ while it differs from
stop (the end iterator holds value_ == stop and RangeItr equality compares
values only), stepping with RangeItr::advance. -/
def rangeElemsAux : Nat → Int → Int → Int → Option (List Int)
  | 0, value, stop, _ => if value = stop then some [] else none
  | fuel + 1, value, stop, step =>
    if value = stop then some []
    else (rangeElemsAux fuel (rangeAdvance value step) stop step).map (value :: ·)

/-- The elements Range(start, stop, step) yields, with the precomputed size
as fuel. -/
def rangeElems (start stop step : Int) : Option (List Int) :=
  rangeElemsAux (rangeSizeN start stop step) start stop step

/-- Modelled from the spec: the sign-correct ceiling division
`ceil((stop-start)/step)` the spec says `size()` is precomputed as; written
for a positive divisor as the negated floor division of the negation. -/
def ceilDivInt (a b : Int) : Int := -((-a) / b)

/-- Modelled from the spec: `size()` as the spec describes it,
`ceil((stop-start)/step)` using the sign-correct integer division for the
direction of step. -/
def rangeSizeSpec (start stop step : Int) : Int :=
  if step > 0 then ceilDivInt (stop - start) step else ceilDivInt (start - stop) (-step)

/-- CartSizeFunctor (cartesian_product.hpp) folded across the component
sizes: initial_value 1, each run multiplies by the component's size.  The
fold itself lives in the tuple-container base class, which is not among the
repository's files; modelled from the spec: size is the product-policy
reduction over the N component sizes. -/
def cartSizeFold (sizes : List Nat) : Nat := sizes.foldl (fun acc s => acc * s) 1

/-- CartIncrementFunctor::Incrementer for two components, acting on a pair of
position indices: increment the component `turn_on`. -/
def cartBump (turn : Nat) (v : Nat × Nat) : Nat × Nat :=
  if turn = 0 then (v.1 + 1, v.2) else (v.1, v.2 + 1)

/-- tuple_find_if with CartIncrementFunctor::AtEnd for two components: the
first index whose iterator equals its end, 2 when none is. -/
def cartFindAtEnd (e v : Nat × Nat) : Nat :=
  if v.1 = e.1 then 0 else if v.2 = e.2 then 1 else 2

/-- CartIncrementFunctor::Reseter for two components with start = (0, 0):
component I is reset when I >= turn_on. -/
def cartReset (turn : Nat) (v : Nat × Nat) : Nat × Nat :=
  (if 0 ≥ turn then 0 else v.1, if 1 ≥ turn then 0 else v.2)

/-- The while loop of CartIncrementFunctor::run for two components.  The
Incrementer mutates value in place, so each pass continues from the bumped
pair.  `some` is the value after a successful carry (break with
new_idx == idx); `none` is the break at idx == 0, which per the spec means
the carry propagated past the leftmost position and iteration is finished.
Fuel bounds the loop; 4 passes are enough for two components. -/
def cartRunLoop : Nat → Nat → Nat × Nat → Nat × Nat → Option (Nat × Nat)
  | 0, _, _, _ => none
  | fuel + 1, idx, e, v =>
    if idx = 0 then none
    else
      let v' := cartBump (idx - 1) v
      let newIdx := cartFindAtEnd e v'
      if newIdx = idx then some (cartReset idx v')
      else cartRunLoop fuel newIdx e v'

/-- One tick of the CartesianProduct iterator for two components: run starts
with idx = nelems = 2. -/
def cartStep (e v : Nat × Nat) : Option (Nat × Nat) := cartRunLoop 4 2 e v

/-- Modelled from the spec: the iteration the missing tuple-container driver
performs — dereference the component indices into the two lists, tick with
CartIncrementFunctor::run, finish when the carry propagates past the leftmost
position.  Fuel bounds the loop. -/
def cartCollect : Nat → List Nat → List Nat → Nat × Nat → Option (List (Nat × Nat))
  | 0, _, _, _ => none
  | fuel + 1, A, B, v =>
    let x := (A.getD v.1 0, B.getD v.2 0)
    match cartStep (A.length, B.length) v with
    | some v' => (cartCollect fuel A B v').map (x :: ·)
    | none => some [x]

/-- CartesianProduct(A, B) iterated to completion from the all-begins pair. -/
def cartProdPairs (A B : List Nat) : Option (List (Nat × Nat)) :=
  cartCollect (A.length * B.length + 1) A B (0, 0)

/-- The loop `for(size_t i = 0; i < k; ++i) temp[i] = false;` of
CombinationItr's constructor, on a 0/1 mask (0 plays vector<bool>'s false). -/
def setFirstZeros : Nat → List Nat → List Nat
  | 0, l => l
  | i + 1, l => (setFirstZeros i l).set i 0

/-- The boolean mask CombinationItr's constructor builds: length `len`, all
true (1), then the first k positions set false (0). -/
def maskFor (len k : Nat) : List Nat := setFirstZeros k (List.replicate len 1)

/-- `eff_size = (n || k ? n + k - 1 : 0)` from CombinationItr's constructor. -/
def effSize (n k : Nat) : Nat := if n ≠ 0 ∨ k ≠ 0 then n + k - 1 else 0

/-- The loop of CombinationItr::update_comb (combinations.hpp): walk the mask
permutation; a 0 (false) writes set_[i] (no-repeat) or set_[bar_count]
(repeat) into comb_[counter++]; a 1 (true) bumps bar_count; break as soon as
counter reaches comb_'s size. -/
def updateCombAux (setL : List Nat) (rep : Bool) :
    List Nat → Nat → Nat → Nat → List Nat → List Nat
  | [], _, _, _, comb => comb
  | b :: rest, i, counter, bar, comb =>
    if b = 0 then
      let comb' := comb.set counter (setL.getD (if rep then bar else i) 0)
      if counter + 1 = comb'.length then comb'
      else updateCombAux setL rep rest (i + 1) (counter + 1) bar comb'
    else
      if counter = comb.length then comb
      else updateCombAux setL rep rest (i + 1) counter (bar + 1) comb

/-- CombinationItr::update_comb on the current mask permutation. -/
def updateComb (setL : List Nat) (rep : Bool) (p : List Nat) (comb : List Nat) : List Nat :=
  updateCombAux setL rep p 0 0 0 comb

/-- State of detail_::CombinationItr<SequenceType, repeat>
(combinations.hpp); the template argument repeat is the field rep. -/
structure CombinationItr where
  set : List Nat
  comb : List Nat
  current_perm : PermutationItr
  rep : Bool
deriving DecidableEq

/-- CombinationItr's constructor: build the mask, take Permutations(mask)'s
begin or end iterator, and fill comb_ (which starts as k default elements)
with update_comb. -/
def CombinationItr.init (input_set : List Nat) (k : Nat) (rep : Bool) (at_end : Bool) :
    CombinationItr :=
  let n := input_set.length
  let len := if rep then effSize n k else n
  let mask := maskFor len k
  let p := PermutationItr.init mask (if at_end then n_permutations mask else 0)
  { set := input_set
    comb := updateComb input_set rep p.set (List.replicate k 0)
    current_perm := p
    rep := rep }

/-- CombinationItr::increment: advance the mask permutation, re-derive comb_. -/
def CombinationItr.increment (c : CombinationItr) : CombinationItr :=
  let p := c.current_perm.increment
  { c with current_perm := p, comb := updateComb c.set c.rep p.set c.comb }

/-- CombinationItr::are_equal: compares set_ and the mask permutation
iterator. -/
def CombinationItr.are_equal (a b : CombinationItr) : Bool :=
  a.set == b.set && a.current_perm.are_equal b.current_perm

/-- The range-for loop over combinations, by analogy with collectPerms. -/
def collectCombs : Nat → CombinationItr → CombinationItr → Option (List (List Nat))
  | 0, b, e => if b.are_equal e then some [] else none
  | fuel + 1, b, e =>
    if b.are_equal e then some []
    else (collectCombs fuel b.increment e).map (b.comb :: ·)

/-- Combinations(s, k) (rep = false) or CombinationsWithRepeat(s, k)
(rep = true) iterated to completion. -/
def combinationsAll (s : List Nat) (k : Nat) (rep : Bool) : Option (List (List Nat)) :=
  let len := if rep then effSize s.length k else s.length
  collectCombs (n_permutations (maskFor len k) + 1)
    (CombinationItr.init s k rep false) (CombinationItr.init s k rep true)



-- ---------- general lemmas ----------

set_option maxRecDepth 8192 in
/-- On a single count m of at most 62, the multinomial loop's intermediates
stay below 2^64, every division is exact, and the result is 1 (checked by
evaluation over the whole bounded range; from 63 on the wrapped product makes
the result 0 instead). -/
theorem multinomial_single_le (m : Nat) (h : m ≤ 62) :
    multinomial_coefficient [m] = 1 := by
  revert m h
  decide

theorem sorted_le_replicate (m x : Nat) : List.Sorted (· ≤ ·) (List.replicate m x) := by
  induction m with
  | zero => simp
  | succ m ih =>
    rw [List.replicate_succ]
    exact List.sorted_cons.mpr ⟨fun b hb => by simp [List.eq_of_mem_replicate hb], ih⟩

theorem sorted_ge_replicate (m x : Nat) : List.Sorted (· ≥ ·) (List.replicate m x) := by
  induction m with
  | zero => simp
  | succ m ih =>
    rw [List.replicate_succ]
    exact List.sorted_cons.mpr ⟨fun b hb => by simp [List.eq_of_mem_replicate hb], ih⟩

theorem sortList_replicate (m x : Nat) : sortList (List.replicate m x) = List.replicate m x :=
  List.Sorted.insertionSort_eq (sorted_le_replicate m x)

theorem runLenAux_replicate (m x : Nat) (h : 0 < m) :
    runLenAux m (List.replicate m x) = [m] := by
  obtain ⟨m', rfl⟩ : ∃ m', m = m' + 1 := ⟨m - 1, by omega⟩
  rw [List.replicate_succ, runLenAux]
  have hc : (List.replicate m' x).count x = m' := by simp [List.count_replicate]
  rw [hc]
  have hd : (List.replicate m' x).drop m' = [] := by
    simp
  rw [hd]
  cases m' with
  | zero => simp [runLenAux]
  | succ n => simp [runLenAux]; omega

theorem n_permutations_replicate (m x : Nat) (hm : m ≤ 62) :
    n_permutations (List.replicate m x) = 1 := by
  rcases Nat.eq_zero_or_pos m with h | h
  · subst h; rfl
  · rw [n_permutations, sortList_replicate]
    have hl : (List.replicate m x).length = m := by simp
    rw [hl, runLenAux_replicate m x h, multinomial_single_le m hm]

theorem findRemove_cons_self (e : Nat) (ys : List Nat) :
    findRemove e (e :: ys) = some (0, ys) := by
  simp [findRemove]

theorem ptf_replicate (m x : Nat) :
    permutation_to_fns (List.replicate m x) (List.replicate m x) = List.replicate m 0 := by
  induction m with
  | zero => rfl
  | succ m ih =>
    cases m with
    | zero => rfl
    | succ m' =>
      show permutation_to_fns (x :: x :: List.replicate m' x) (x :: x :: List.replicate m' x)
          = 0 :: List.replicate (m' + 1) 0
      rw [permutation_to_fns, findRemove_cons_self]
      show 0 :: permutation_to_fns (x :: List.replicate m' x) (x :: List.replicate m' x)
          = 0 :: List.replicate (m' + 1) 0
      rw [show (x :: List.replicate m' x) = List.replicate (m' + 1) x from rfl, ih]

theorem innerProd_zeros (m : Nat) : ∀ v : List Nat, innerProd (List.replicate m 0) v = 0 := by
  induction m with
  | zero => intro v; simp [innerProd]
  | succ m ih =>
    intro v
    cases v with
    | nil => simp [innerProd]
    | cons b bs =>
      rw [List.replicate_succ]
      have := ih bs
      simp [innerProd, List.zipWith] at this ⊢
      exact this

theorem ptd_replicate (m x : Nat) :
    permutation_to_decimal (List.replicate m x) (List.replicate m x) = 0 := by
  rw [permutation_to_decimal, ptf_replicate, innerProd_zeros]

theorem nextPermGo_cons (x : Nat) (xs : List Nat) :
    nextPermGo (x :: xs) = match nextPermGo xs with
      | some ys => some (x :: ys)
      | none => nextPermPivot x xs := rfl

theorem prevPermGo_cons (x : Nat) (xs : List Nat) :
    prevPermGo (x :: xs) = match prevPermGo xs with
      | some ys => some (x :: ys)
      | none => prevPermPivot x xs := rfl

theorem nextPermGo_sorted_ge : ∀ {l : List Nat}, List.Sorted (· ≥ ·) l →
    nextPermGo l = none := by
  intro l
  induction l with
  | nil => intro _; rfl
  | cons x xs ih =>
    intro h
    have hxs : List.Sorted (· ≥ ·) xs := (List.sorted_cons.mp h).2
    rw [nextPermGo_cons, ih hxs]
    cases xs with
    | nil => rfl
    | cons y ys =>
      have hxy : y ≤ x := (List.sorted_cons.mp h).1 y (by simp)
      simp [nextPermPivot, Nat.not_lt.mpr hxy]

theorem prevPermGo_sorted_le : ∀ {l : List Nat}, List.Sorted (· ≤ ·) l →
    prevPermGo l = none := by
  intro l
  induction l with
  | nil => intro _; rfl
  | cons x xs ih =>
    intro h
    have hxs : List.Sorted (· ≤ ·) xs := (List.sorted_cons.mp h).2
    rw [prevPermGo_cons, ih hxs]
    cases xs with
    | nil => rfl
    | cons y ys =>
      have hxy : x ≤ y := (List.sorted_cons.mp h).1 y (by simp)
      simp [prevPermPivot, Nat.not_lt.mpr hxy]

theorem nextPerm_sorted_ge {l : List Nat} (h : List.Sorted (· ≥ ·) l) :
    nextPerm l = l.reverse := by
  rw [nextPerm, nextPermGo_sorted_ge h]; rfl

theorem prevPerm_sorted_le {l : List Nat} (h : List.Sorted (· ≤ ·) l) :
    prevPerm l = l.reverse := by
  rw [prevPerm, prevPermGo_sorted_le h]; rfl

theorem nextPerm_replicate (m x : Nat) :
    nextPerm (List.replicate m x) = List.replicate m x := by
  rw [nextPerm_sorted_ge (sorted_ge_replicate m x), List.reverse_replicate]

theorem updateCombAux_nil (setL : List Nat) (rep : Bool) :
    ∀ (p : List Nat) (i counter bar : Nat),
      updateCombAux setL rep p i counter bar [] = [] := by
  intro p
  induction p with
  | nil => intro i counter bar; rfl
  | cons b rest ih =>
    intro i counter bar
    rw [updateCombAux]
    by_cases hb : b = 0
    · simp only [hb, if_pos rfl]
      simp only [List.set]
      by_cases hc : counter + 1 = ([] : List Nat).length
      · simp at hc
      · simp only [List.length_nil, if_neg hc]
        exact ih (i + 1) (counter + 1) bar
    · simp only [if_neg hb]
      by_cases hc : counter = ([] : List Nat).length
      · simp only [List.length_nil] at hc
        simp [hc]
      · simp only [List.length_nil, if_neg hc]
        simp only [List.length_nil] at hc
        simp [hc]
        exact ih (i + 1) counter (bar + 1)

theorem uone_mod : (0 + 1) % U64 = 1 := by
  rw [U64]; norm_num

theorem combinationItr_init_k0 (s : List Nat) (rep : Bool) (ae : Bool)
    (hlen : (if rep then effSize s.length 0 else s.length) ≤ 62) :
    CombinationItr.init s 0 rep ae =
      { set := s, comb := [],
        current_perm :=
          { orig_set := List.replicate (if rep then effSize s.length 0 else s.length) 1
            sorted_orig := List.replicate (if rep then effSize s.length 0 else s.length) 1
            set := List.replicate (if rep then effSize s.length 0 else s.length) 1
            offset := if ae then 1 else 0
            dx := 0 }
        rep := rep } := by
  set m := if rep then effSize s.length 0 else s.length with hm
  have hmask : maskFor m 0 = List.replicate m 1 := rfl
  rw [CombinationItr.init]
  simp only [← hm, hmask, PermutationItr.init, sortList_replicate, ptd_replicate,
    n_permutations_replicate m 1 hlen, List.replicate_zero, updateComb, updateCombAux_nil]

theorem combinationsAll_k0 (s : List Nat) (rep : Bool)
    (hlen : (if rep then effSize s.length 0 else s.length) ≤ 62) :
    combinationsAll s 0 rep = some [[]] := by
  have hinitf := combinationItr_init_k0 s rep false hlen
  have hinitt := combinationItr_init_k0 s rep true hlen
  set m := if rep then effSize s.length 0 else s.length with hm
  have hmask : maskFor m 0 = List.replicate m 1 := rfl
  rw [combinationsAll]
  simp only [← hm, hmask, n_permutations_replicate m 1 hlen, hinitf, hinitt]
  rw [collectCombs]
  simp only [CombinationItr.are_equal, PermutationItr.are_equal, beq_self_eq_true,
    Bool.true_and, Bool.and_true]
  norm_num
  rw [CombinationItr.increment]
  simp only [PermutationItr.increment, nextPerm_replicate, uone_mod, updateComb,
    updateCombAux_nil]
  rw [collectCombs]
  simp [CombinationItr.are_equal, PermutationItr.are_equal]

-- ---------- binomial coefficient lemmas ----------

theorem bc_k0 (n : Nat) : binomial_coefficient n 0 = some 1 := by
  cases n <;> rfl

theorem bc_k_gt (n k : Nat) (h : n < k) : binomial_coefficient n k = some 0 := by
  cases n with
  | zero =>
    cases k with
    | zero => omega
    | succ k' => rfl
  | succ n' =>
    cases k with
    | zero => omega
    | succ k' =>
      rw [binomial_coefficient]
      simp only [if_pos (by omega : k' + 1 > n' + 1)]

theorem bc_overflow (n k : Nat) (h64 : 64 ≤ n) (hk : 0 < k) (hkn : k ≤ n) :
    binomial_coefficient n k = none := by
  cases n with
  | zero => omega
  | succ n' =>
    cases k with
    | zero => omega
    | succ k' =>
      rw [binomial_coefficient]
      simp only [if_neg (by omega : ¬ k' + 1 > n' + 1), if_neg (by omega : ¬ n' + 1 < 64)]

theorem bc_eq_choose : ∀ n, n < 64 → ∀ k, binomial_coefficient n k = some (Nat.choose n k) := by
  intro n
  induction n with
  | zero =>
    intro _ k
    cases k with
    | zero => rfl
    | succ k' => simp [binomial_coefficient, Nat.choose]
  | succ n' ih =>
    intro h64 k
    cases k with
    | zero => simp [bc_k0]
    | succ k' =>
      by_cases hgt : k' + 1 > n' + 1
      · rw [bc_k_gt _ _ hgt, Nat.choose_eq_zero_of_lt hgt]
      · rw [binomial_coefficient]
        simp only [if_neg hgt, if_pos h64]
        rw [ih (by omega) k', ih (by omega) (k' + 1)]
        rw [Nat.choose_succ_succ]

theorem bc_none_iff (n k : Nat) :
    binomial_coefficient n k = none ↔ 64 ≤ n ∧ 0 < k ∧ k ≤ n := by
  constructor
  · intro h
    by_cases h64 : n < 64
    · rw [bc_eq_choose n h64 k] at h; exact absurd h (by simp)
    · cases k with
      | zero => rw [bc_k0] at h; exact absurd h (by simp)
      | succ k' =>
        by_cases hgt : n < k' + 1
        · rw [bc_k_gt _ _ hgt] at h; exact absurd h (by simp)
        · exact ⟨by omega, by omega, by omega⟩
  · rintro ⟨h64, hk, hkn⟩
    exact bc_overflow n k h64 hk hkn

theorem choose_35_4 : Nat.choose 35 4 = 52360 := by
  rw [Nat.choose_eq_descFactorial_div_factorial]; rfl

-- ---------- fold and product ----------

theorem foldl_mul_eq (l : List Nat) : ∀ a : Nat, l.foldl (fun acc s => acc * s) a = a * l.prod := by
  induction l with
  | nil => intro a; simp
  | cons x xs ih =>
    intro a
    rw [List.foldl_cons, ih, List.prod_cons, Nat.mul_assoc]

theorem cartSizeFold_eq_prod (sizes : List Nat) : cartSizeFold sizes = sizes.prod := by
  rw [cartSizeFold, foldl_mul_eq, Nat.one_mul]

-- ---------- range size lemmas ----------

theorem rangeSize_exact (start stop step : Int) (hstep : step ≠ 0)
    (hdvd : step ∣ (stop - start)) :
    rangeSize start stop step = rangeSizeSpec start stop step := by
  obtain ⟨q, hq⟩ := hdvd
  have h1 : rangeSize start stop step = q := by
    rw [rangeSize]
    by_cases h : stop > start
    · rw [if_pos h, hq, Int.mul_tdiv_cancel_left _ hstep]
    · rw [if_neg h]
      have hss : start - stop = (-1 * step) * q := by linear_combination -hq
      rw [hss, Int.mul_tdiv_cancel_left _ (by simpa using hstep)]
  have h2 : rangeSizeSpec start stop step = q := by
    rw [rangeSizeSpec]
    by_cases h : step > 0
    · rw [if_pos h, ceilDivInt]
      have hneg : -(stop - start) = step * (-q) := by linear_combination -hq
      rw [hneg, Int.mul_ediv_cancel_left _ hstep]
      ring
    · rw [if_neg h, ceilDivInt]
      have hneg : -(start - stop) = (-step) * (-q) := by linear_combination hq
      rw [hneg, Int.mul_ediv_cancel_left _ (by simpa using hstep)]
      ring
  rw [h1, h2]

-- ---------- claim theorems ----------

/-- C1 (code_bug evidence): the FNS round-trip fails on the sorted multiset
[1,1,2,2].  Its six permutations are correctly unranked by
decimal_to_permutation, but permutation_to_decimal maps the rank-3
permutation [2,1,1,2] to 2, so rank 3 does not round-trip, and the
permutation [2,1,1,2] maps back to [1,2,2,1].  The unsorted sequence
[2,1,2] also fails: ranks 1 and 2 unrank to the same permutation. -/
theorem C1_fns_round_trip_fails :
    n_permutations [1, 1, 2, 2] = 6 ∧
    decimal_to_permutation 3 [1, 1, 2, 2] = some [2, 1, 1, 2] ∧
    permutation_to_decimal [2, 1, 1, 2] [1, 1, 2, 2] = 2 ∧
    decimal_to_permutation (permutation_to_decimal [2, 1, 1, 2] [1, 1, 2, 2]) [1, 1, 2, 2]
      = some [1, 2, 2, 1] ∧
    n_permutations [2, 1, 2] = 3 ∧
    decimal_to_permutation 2 [2, 1, 2] = decimal_to_permutation 1 [2, 1, 2] := by
  refine ⟨by decide, by decide, by decide, by decide, by decide, by decide⟩

/-- C2 (code_bug evidence): advancing a PermutationItr over [2,1,1,2] by one
is not the same as one increment: advance leaves the materialized sequence at
[2,1,1,2] (its dx_ was mis-ranked as 2 by permutation_to_decimal) while
increment produces [2,1,2,1]. -/
theorem C2_advance_one_step_mismatch :
    ((PermutationItr.init [2, 1, 1, 2] 0).advance 1).map PermutationItr.set
      = some [2, 1, 1, 2] ∧
    ((PermutationItr.init [2, 1, 1, 2] 0).increment).set = [2, 1, 2, 1] ∧
    ((PermutationItr.init [2, 1, 1, 2] 0).advance 1).map
        (fun it => it.are_equal ((PermutationItr.init [2, 1, 1, 2] 0).increment))
      = some false ∧
    (PermutationItr.init [2, 1, 1, 2] 0).advance 1
      ≠ some ((PermutationItr.init [2, 1, 1, 2] 0).increment) := by
  refine ⟨by decide, by decide, by decide, by decide⟩

/-- C3: iterating the PermutationItr over [1,2,3] from offset 0 to offset 6
yields exactly the 6 permutations in lexicographic order, and over the
multiset [1,2,2] exactly its 3 unique permutations, matching
n_permutations. -/
theorem C3_permutation_enumeration :
    permutationsAll [1, 2, 3]
      = some [[1, 2, 3], [1, 3, 2], [2, 1, 3], [2, 3, 1], [3, 1, 2], [3, 2, 1]] ∧
    n_permutations [1, 2, 3] = 6 ∧
    permutationsAll [1, 2, 2] = some [[1, 2, 2], [2, 1, 2], [2, 2, 1]] ∧
    n_permutations [1, 2, 2] = 3 := by
  refine ⟨by decide, by decide, by decide, by decide⟩

/-- C4: incrementing an iterator whose sequence is the lexicographically
greatest arrangement (non-increasing) wraps to its reverse, the
lexicographically least (non-decreasing) arrangement, and symmetrically for
decrement; a PermutationItr started at [1,3,2] and stepped six times passes
through every unique permutation of the multiset exactly once and returns to
its start. -/
theorem C4_wraparound :
    (∀ it : PermutationItr, List.Sorted (· ≥ ·) it.set →
      it.increment.set = it.set.reverse ∧ List.Sorted (· ≤ ·) it.increment.set) ∧
    (∀ it : PermutationItr, List.Sorted (· ≤ ·) it.set →
      it.decrement.set = it.set.reverse ∧ List.Sorted (· ≥ ·) it.decrement.set) ∧
    iterSets 6 (PermutationItr.init [1, 3, 2] 0)
      = [[1, 3, 2], [2, 1, 3], [2, 3, 1], [3, 1, 2], [3, 2, 1], [1, 2, 3]] ∧
    (iterSets 6 (PermutationItr.init [1, 3, 2] 0)).Nodup ∧
    (incrementN 6 (PermutationItr.init [1, 3, 2] 0)).set = [1, 3, 2] := by
  refine ⟨?_, ?_, by decide, by decide, by decide⟩
  · intro it h
    have hset : it.increment.set = it.set.reverse := nextPerm_sorted_ge h
    exact ⟨hset, hset ▸ List.pairwise_reverse.mpr h⟩
  · intro it h
    have hset : it.decrement.set = it.set.reverse := prevPerm_sorted_le h
    exact ⟨hset, hset ▸ List.pairwise_reverse.mpr h⟩

/-- C5 counterexample: for Range(1, 8, 2) the constructor's truncating
division precomputes size 3 while ceil((8-1)/2) is 4, so size() is not the
ceiling the claim states. -/
theorem C5_size_not_ceiling :
    rangeSizeN 1 8 2 = 3 ∧ rangeSizeSpec 1 8 2 = 4 ∧
    rangeSize 1 8 2 ≠ rangeSizeSpec 1 8 2 := by
  refine ⟨by decide, by decide, by decide⟩

/-- C5 amended: size() is precomputed with truncating integer division,
sign-corrected for the direction of step; it equals the spec's ceiling
whenever step exactly divides stop - start (the constructor's documented
precondition), and Range(1,7,2) yields 1,3,5 with size 3 while Range(8,2,-2)
yields 8,6,4 with size 3. -/
theorem C5_size_amended :
    (∀ start stop step : Int, step ≠ 0 → step ∣ (stop - start) →
      rangeSize start stop step = rangeSizeSpec start stop step) ∧
    rangeSizeN 1 7 2 = 3 ∧ rangeElems 1 7 2 = some [1, 3, 5] ∧
    rangeSizeN 8 2 (-2) = 3 ∧ rangeElems 8 2 (-2) = some [8, 6, 4] := by
  refine ⟨rangeSize_exact, by decide, by decide, by decide, by decide⟩

/-- C6: once n is at least 64 (the bit width of the std::size_t accumulator)
every call that needs the Pascal recursion (0 < k <= n) fails with the
overflow condition, modelled as none; in particular (99999, 88) fails.  The
failure is distinct from returning 0, which is delivered as some 0 whenever
k > n. -/
theorem C6_overflow_signalling :
    (∀ n k : Nat, 64 ≤ n → 0 < k → k ≤ n → binomial_coefficient n k = none) ∧
    binomial_coefficient 99999 88 = none ∧
    (∀ n k : Nat, n < k → binomial_coefficient n k = some 0) := by
  refine ⟨bc_overflow, by decide, bc_k_gt⟩

set_option maxRecDepth 8192 in
/-- C7 counterexample: for a 63-element input sequence the k = 0 mask is 63
equal symbols, the wrapped multinomial makes n_permutations of the mask 0, so
Combinations(s, 0)'s begin and end iterators coincide at offset 0 and the
container yields no combination at all, not exactly one. -/
theorem C7_k0_empty_at_63 :
    n_permutations (List.replicate 63 1) = 0 ∧
    combinationsAll (List.replicate 63 1) 0 false = some [] ∧
    combinationsAll (List.replicate 63 1) 0 false ≠ some [[]] := by
  refine ⟨by decide, by decide, by decide⟩

/-- C7 (amended): choosing 2 of [1,2,3] without repeats yields
[1,2],[1,3],[2,3] in order; multichoosing 2 of [1,2] yields
[1,1],[1,2],[2,2]; and for k = 0 either form yields exactly one result, the
empty combination, as long as the boolean mask has at most 62 symbols —
fewer than 63 input elements without repeats, fewer than 64 with repeats
(beyond that the std::size_t multinomial wraps to 0 and the container is
empty). -/
theorem C7_combination_enumeration :
    combinationsAll [1, 2, 3] 2 false = some [[1, 2], [1, 3], [2, 3]] ∧
    combinationsAll [1, 2] 2 true = some [[1, 1], [1, 2], [2, 2]] ∧
    (∀ s : List Nat, s.length < 63 → combinationsAll s 0 false = some [[]]) ∧
    (∀ s : List Nat, s.length < 64 → combinationsAll s 0 true = some [[]]) := by
  refine ⟨by decide, by decide, ?_, ?_⟩
  · intro s h
    apply combinationsAll_k0
    simp only [Bool.false_eq_true, if_false]
    omega
  · intro s h
    apply combinationsAll_k0
    simp only [if_true, effSize]
    split <;> omega

/-- C8: the CartSizeFunctor fold makes size() the product of the component
sizes, hence 0 as soon as one component is empty; CartesianProduct of
[1,2,3] and [1,3] has size 6 and the odometer increment yields the 6 ordered
pairs in lexicographic order with the first list varying slowest. -/
theorem C8_cartesian_product :
    (∀ sizes : List Nat, cartSizeFold sizes = sizes.prod) ∧
    (∀ sizes : List Nat, 0 ∈ sizes → cartSizeFold sizes = 0) ∧
    cartSizeFold [3, 2] = 6 ∧
    cartProdPairs [1, 2, 3] [1, 3]
      = some [(1, 1), (1, 3), (2, 1), (2, 3), (3, 1), (3, 3)] := by
  refine ⟨cartSizeFold_eq_prod, ?_, by decide, by decide⟩
  intro sizes h
  rw [cartSizeFold_eq_prod]
  exact List.prod_eq_zero h

/-- C9: binomial_coefficient returns 1 for k = 0 (any n, including 0), 0 for
k > n, and 52360 for (35, 4). -/
theorem C9_binomial_edge_cases :
    (∀ n : Nat, binomial_coefficient n 0 = some 1) ∧
    (∀ n k : Nat, n < k → binomial_coefficient n k = some 0) ∧
    binomial_coefficient 0 0 = some 1 ∧
    binomial_coefficient 0 1 = some 0 ∧
    binomial_coefficient 4 0 = some 1 ∧
    binomial_coefficient 35 4 = some 52360 := by
  refine ⟨bc_k0, bc_k_gt, by decide, by decide, by decide, ?_⟩
  rw [bc_eq_choose 35 (by omega) 4, choose_35_4]

/-- C10: the base cases win over the overflow guard: the overflow condition
is raised exactly when 64 <= n and 0 < k <= n, while k = 0 still returns 1
and k > n still returns 0 even for n at or above 64. -/
theorem C10_overflow_exactly : ∀ n k : Nat,
    (binomial_coefficient n k = none ↔ 64 ≤ n ∧ 0 < k ∧ k ≤ n) ∧
    (64 ≤ n → binomial_coefficient n 0 = some 1) ∧
    (64 ≤ n → n < k → binomial_coefficient n k = some 0) := by
  intro n k
  exact ⟨bc_none_iff n k, fun _ => bc_k0 n, fun _ h => bc_k_gt n k h⟩
end Utilities
